import Mathlib

/-!
Verification of the FoundersBrain RAG pipeline.

This file gives a shallow embedding, in Lean 4, of the retrieval-augmented
generation core of the repository: the timestamp parser and transcript
chunker of `scripts/convert_txt.ts` (ingestion script), the ingestion
coordinator `upsertChunks`/`ingestFile` of the same script, the query
pipeline of the chat API route (`withRetry`, `translateQueryForEmbedding`,
`generateQueryEmbedding`, `searchRelevantChunks`, `buildContext`,
`formatSources`, the dominant-speaker vote and the `POST` handler), and the
`match_knowledge` SQL function of `supabase/migrations/001_knowledge_base.sql`.

Modelling conventions:
* JavaScript strings are modelled as `List Char` (`Str`).  String length is
  counted in characters; for the ASCII and Hangul text this program handles
  this agrees with JavaScript's UTF-16 unit count.
* JavaScript numbers that arise from timestamps are integers (seconds), so
  they are modelled as `Option ℤ` (`JsNum`) where `none` stands for `NaN`;
  arithmetic propagates `NaN` and every comparison with `NaN` is false,
  exactly as in JavaScript.
* Similarity scores are modelled as `ℚ`.
* Fallible external calls (Gemini, Supabase) are modelled as oracle
  functions returning `Except JsError α`; a thrown JavaScript error is an
  explicit `JsError` value carrying the optional `status` field and the
  message that the route handler inspects.
-/

namespace FoundersBrain

/-- JavaScript strings, modelled as lists of characters. -/
abbrev Str := List Char

/-- JavaScript numbers produced by timestamp parsing: `none` models `NaN`. -/
abbrev JsNum := Option ℤ

/-- Whitespace recognised by the model of `String.prototype.trim`. -/
def wsChar (c : Char) : Bool := c == ' ' || c == '\t' || c == '\n' || c == '\r'

/-- Model of JavaScript `s.trim()` (restricted to the ASCII whitespace that
occurs in this program's inputs). -/
def trimStr (s : Str) : Str := ((s.dropWhile wsChar).reverse.dropWhile wsChar).reverse

/-- Accumulator loop for `splitOnChar`. -/
def splitAux (sep : Char) : Str → Str → List Str
  | [], cur => [cur.reverse]
  | c :: rest, cur =>
    if c = sep then cur.reverse :: splitAux sep rest [] else splitAux sep rest (c :: cur)

/-- Model of JavaScript `s.split(sep)` for a one-character separator:
`split` of the empty string is `[""]`, and separators at the ends produce
empty fields, as in JavaScript. -/
def splitOnChar (sep : Char) (s : Str) : List Str := splitAux sep s []

/-- Numeric value of a digit string. -/
def digitsVal (t : Str) : ℕ := t.foldl (fun n c => n * 10 + (c.toNat - 48)) 0

/-- Model of the JavaScript `Number(s)` coercion, restricted to the shapes
that reach it in this program (colon-separated timestamp components): the
empty or all-blank string coerces to `0`, a string of decimal digits to its
value, and anything else to `NaN` (`none`).  (Fractional, signed, hex and
exponent literals never occur in timestamp components.) -/
def jsNumber (s : Str) : JsNum :=
  let t := trimStr s
  if t.isEmpty then some 0
  else if t.all Char.isDigit then some ((digitsVal t : ℕ) : ℤ)
  else none

/-- JavaScript `+` on numbers, with `NaN` propagation. -/
def jsAdd : JsNum → JsNum → JsNum
  | some a, some b => some (a + b)
  | _, _ => none

/-- JavaScript `*` on numbers, with `NaN` propagation. -/
def jsMul : JsNum → JsNum → JsNum
  | some a, some b => some (a * b)
  | _, _ => none

/-- JavaScript `-` on numbers, with `NaN` propagation. -/
def jsSub : JsNum → JsNum → JsNum
  | some a, some b => some (a - b)
  | _, _ => none

/-- JavaScript `<=` on numbers: any comparison involving `NaN` is false. -/
def jsLeB : JsNum → JsNum → Bool
  | some a, some b => decide (a ≤ b)
  | _, _ => false

/-- Model of `parseTimeToSeconds` from `scripts/convert_txt.ts` (ingestion
script): split on `":"`, coerce the parts with `Number`, and combine two
parts as `MM:SS`, three parts as `HH:MM:SS`; any other number of parts
yields `0`. -/
def parseTimeToSeconds (time : Str) : JsNum :=
  match (splitOnChar ':' time).map jsNumber with
  | [m, s] => jsAdd (jsMul m (some 60)) s
  | [h, m, s] => jsAdd (jsAdd (jsMul h (some 3600)) (jsMul m (some 60))) s
  | _ => some 0

/-- A transcript segment as read from a transcript JSON file. -/
structure TranscriptSegment where
  time : Str
  text : Str
deriving DecidableEq

/-- A chunk produced by `chunkTranscript`. -/
structure Chunk where
  content : Str
  startTime : JsNum
  endTime : JsNum
  chunkIndex : ℕ
deriving DecidableEq

/-- Model of `Array.prototype.join(" ")`. -/
def joinSp (l : List Str) : Str :=
  match l with
  | [] => []
  | [x] => x
  | x :: xs => x ++ ' ' :: joinSp xs

/-- Model of `a.slice(-2)`: the trailing at-most-two elements. -/
def takeLast2 (l : List Str) : List Str := l.drop (l.length - 2)

/-- Target tokens per chunk (`CHUNK_SIZE` in the ingestion script). -/
def CHUNK_SIZE : ℕ := 500

/-- Character budget per chunk: `CHUNK_SIZE * 4`. -/
def targetChars : ℕ := CHUNK_SIZE * 4

/-- The overlap seeded into the next chunk when a chunk is closed: the join
of the trailing at-most-two buffer entries, wrapped as a one-element buffer
when non-empty (`overlapText ? [overlapText] : []` in the source). -/
def overlapSeed (buf : List Str) : List Str :=
  let o := joinSp (takeLast2 buf)
  if o = [] then [] else [o]

/-- The segment loop of `chunkTranscript`: state is the pending buffer
`currentChunk`, the running character count, the current chunk's start time,
the last segment time seen, and the next chunk index. -/
def chunkLoop : List TranscriptSegment → List Str → ℕ → JsNum → JsNum → ℕ → List Chunk
  | [], currentChunk, _, chunkStartTime, lastSegmentTime, chunkIndex =>
    if 0 < currentChunk.length then
      [⟨joinSp currentChunk, chunkStartTime, lastSegmentTime, chunkIndex⟩]
    else []
  | seg :: rest, currentChunk, currentCharCount, chunkStartTime, lastSegmentTime, chunkIndex =>
    let segmentText := trimStr seg.text
    let segmentChars := segmentText.length
    let segmentTime := parseTimeToSeconds seg.time
    if targetChars < currentCharCount + segmentChars ∧ 0 < currentChunk.length then
      let closed : Chunk := ⟨joinSp currentChunk, chunkStartTime, lastSegmentTime, chunkIndex⟩
      let seeded := overlapSeed currentChunk
      closed :: chunkLoop rest (seeded ++ [segmentText])
        ((joinSp (takeLast2 currentChunk)).length + segmentChars + 1)
        segmentTime segmentTime (chunkIndex + 1)
    else
      chunkLoop rest (currentChunk ++ [segmentText]) (currentCharCount + segmentChars + 1)
        chunkStartTime segmentTime chunkIndex

/-- Model of `chunkTranscript` from the ingestion script.  The initial start
time is `parseTimeToSeconds(segments[0]?.time || "0:00")` (the `||` also
replaces an empty first time string). -/
def chunkTranscript (segments : List TranscriptSegment) : List Chunk :=
  let t0 : Str :=
    match segments.head? with
    | some s => if s.time = [] then ("0:00".toList) else s.time
    | none => ("0:00".toList)
  let st := parseTimeToSeconds t0
  chunkLoop segments [] 0 st st 0

/-- Ghost replay of `chunkLoop` that records, for every emitted chunk, the
pair (seeded overlap prefix, texts of the segments newly placed in that
chunk).  The buffer of the faithful loop is always `seed ++ news`. -/
def chunkPiecesLoop : List TranscriptSegment → List Str → List Str → ℕ → List (List Str × List Str)
  | [], seed, news, _ =>
    if 0 < (seed ++ news).length then [(seed, news)] else []
  | seg :: rest, seed, news, currentCharCount =>
    let segmentText := trimStr seg.text
    let segmentChars := segmentText.length
    if targetChars < currentCharCount + segmentChars ∧ 0 < (seed ++ news).length then
      (seed, news) :: chunkPiecesLoop rest (overlapSeed (seed ++ news)) [segmentText]
        ((joinSp (takeLast2 (seed ++ news))).length + segmentChars + 1)
    else
      chunkPiecesLoop rest seed (news ++ [segmentText]) (currentCharCount + segmentChars + 1)

/-- The (seed, new texts) decomposition of the chunks of a transcript. -/
def chunkPieces (segments : List TranscriptSegment) : List (List Str × List Str) :=
  chunkPiecesLoop segments [] [] 0

/-- Speaker information attached to a transcript file. -/
structure Speaker where
  name : Str
  title : Option Str
  background : Option Str
deriving DecidableEq

/-- A transcript JSON file as consumed by the ingestion script
(`TranscriptFile` in `scripts/convert_txt.ts`). -/
structure TranscriptFile where
  video_id : Str
  title : Str
  url : Str
  source_origin : Option Str
  speaker : Option Speaker
  description : Option Str
  topics : Option (List Str)
  segments : List TranscriptSegment
deriving DecidableEq

/-- The default source origin tag (`DEFAULT_SOURCE_ORIGIN`). -/
def DEFAULT_SOURCE_ORIGIN : Str := "yc_startup_school".toList

/-- The source origin used for a transcript:
`transcript.source_origin || DEFAULT_SOURCE_ORIGIN` (the JavaScript `||`
also replaces an empty string). -/
def sourceOriginOf (t : TranscriptFile) : Str :=
  match t.source_origin with
  | some s => if s = [] then DEFAULT_SOURCE_ORIGIN else s
  | none => DEFAULT_SOURCE_ORIGIN

/-- The `metadata` JSONB column written for every row. -/
structure RowMetadata where
  ingested_at : Str
  ingestion_method : Str
  speaker : Option Speaker
  description : Option Str
  topics : List Str
deriving DecidableEq

/-- A row of the `knowledge_base` table as built by `upsertChunks`. -/
structure Row where
  content : Str
  embedding : Option (List ℚ)
  source_origin : Str
  source_type : Str
  video_id : Str
  video_title : Str
  video_url : Str
  start_time : JsNum
  end_time : JsNum
  duration : JsNum
  chunk_index : ℕ
  total_chunks : ℕ
  metadata : RowMetadata
deriving DecidableEq

/-- The row objects built by `upsertChunks` before the delete/insert: one
row per chunk, with `embeddings[i]` looked up by position (`none` when the
embedding list is shorter, as `undefined` would be).  The JavaScript
`description || null` turns an empty description into `null`, and
`topics || []` defaults a missing topic list. -/
def mkRows (chunks : List Chunk) (embeddings : List (List ℚ)) (t : TranscriptFile)
    (now : Str) : List Row :=
  chunks.enum.map (fun p =>
    { content := p.2.content
      embedding := embeddings[p.1]?
      source_origin := sourceOriginOf t
      source_type := "youtube".toList
      video_id := t.video_id
      video_title := t.title
      video_url := t.url
      start_time := p.2.startTime
      end_time := p.2.endTime
      duration := jsSub p.2.endTime p.2.startTime
      chunk_index := p.2.chunkIndex
      total_chunks := chunks.length
      metadata :=
        { ingested_at := now
          ingestion_method := "file".toList
          speaker := t.speaker
          description :=
            match t.description with
            | some d => if d = [] then none else some d
            | none => none
          topics := t.topics.getD [] } })

/-- The delete filter of `upsertChunks`: a stored row matches the identity
of a transcript when both its `video_id` and its `source_origin` agree. -/
def matchesIdentity (t : TranscriptFile) (r : Row) : Bool :=
  r.video_id == t.video_id && r.source_origin == sourceOriginOf t

/-- The batched insert loop of `upsertChunks`: rows are appended to the
table in consecutive slices of at most 50. -/
def insertBatches (db : List Row) (rows : List Row) : List Row :=
  if rows = [] then db
  else insertBatches (db ++ rows.take 50) (rows.drop 50)
termination_by rows.length
decreasing_by
  simp only [List.length_drop]
  have hpos : 0 < rows.length := List.length_pos.mpr (by assumption)
  omega

/-- Model of `upsertChunks` from the ingestion script: build the row
objects, delete every stored row matching the transcript's
`(video_id, source_origin)` identity, then insert the new rows in batches
of 50.  The datastore is modelled as the list of stored rows; `now` stands
for the `ingested_at` timestamp taken at ingestion time. -/
def upsertChunks (db : List Row) (chunks : List Chunk) (embeddings : List (List ℚ))
    (t : TranscriptFile) (now : Str) : List Row :=
  let rows := mkRows chunks embeddings t now
  insertBatches (db.filter (fun r => !(matchesIdentity t r))) rows

/-- Model of `generateEmbeddingsWithDelay`: on the success path it embeds
every text in order (one vector per text); the delay is timing-only. -/
def generateEmbeddingsWithDelay (embed : Str → List ℚ) (texts : List Str) : List (List ℚ) :=
  texts.map embed

/-- Model of `ingestFile` from the ingestion script, starting from the
already-parsed transcript (the file-reading step is outside the model):
chunk the segments, embed every chunk content in order, then run
`upsertChunks` against the datastore.  There is no emptiness check on the
segment list anywhere on this path. -/
def ingestFile (embed : Str → List ℚ) (t : TranscriptFile) (db : List Row)
    (now : Str) : List Row :=
  let chunks := chunkTranscript t.segments
  let embeddings := generateEmbeddingsWithDelay embed (chunks.map Chunk.content)
  upsertChunks db chunks embeddings t now

/-- Speaker reference inside a match result's metadata. -/
structure SpeakerRef where
  name : Str
  title : Option Str
deriving DecidableEq

/-- Metadata projection carried by a match result. -/
structure MRMetadata where
  speaker : Option SpeakerRef
  description : Option Str
deriving DecidableEq

/-- A row returned by the similarity search, as consumed by the chat API
route (`MatchResult` in the route source). -/
structure MatchResult where
  id : Str
  content : Str
  video_title : Str
  video_url : Str
  video_id : Str
  start_time : JsNum
  metadata : MRMetadata
  similarity : ℚ
deriving DecidableEq

/-- A cited source returned to the UI. -/
structure Source where
  title : Str
  url : Str
  timestamp : JsNum
  speaker : Option Str
deriving DecidableEq

/-- Model of `s.includes(sub)`. -/
def jsIncludes (s sub : Str) : Bool :=
  match s with
  | [] => sub.isPrefixOf []
  | c :: rest => sub.isPrefixOf (c :: rest) || jsIncludes rest sub

/-- Decimal digits of a natural number. -/
def natToChars (n : ℕ) : Str :=
  if n < 10 then [Char.ofNat (48 + n)]
  else natToChars (n / 10) ++ [Char.ofNat (48 + n % 10)]
termination_by n
decreasing_by
  exact Nat.div_lt_self (by omega) (by omega)

/-- String interpolation of `Math.floor(x)`: floor of a number, or the
string `NaN` when `x` is `NaN`.  (Times are integral here, so the floor is
the number itself.) -/
def mathFloorToChars (x : JsNum) : Str :=
  match x with
  | some z => if z < 0 then '-' :: natToChars z.natAbs else natToChars z.natAbs
  | none => "NaN".toList

/-- One step of the `uniqueVideos` map of `formatSources`: if the incoming
chunk's `video_id` is already a key, replace the stored chunk exactly when
the incoming similarity is strictly greater; otherwise append the chunk as
a new entry.  This mirrors the insertion-order semantics of a JavaScript
`Map`. -/
def updateUniqueVideos (acc : List MatchResult) (c : MatchResult) : List MatchResult :=
  match acc with
  | [] => [c]
  | e :: rest =>
    if e.video_id = c.video_id then
      (if e.similarity < c.similarity then c :: rest else e :: rest)
    else e :: updateUniqueVideos rest c

/-- The deduplication pass of `formatSources`: fold every retrieved chunk
into the `uniqueVideos` map and read the values back in insertion order. -/
def dedupByVideo (chunks : List MatchResult) : List MatchResult :=
  chunks.foldl updateUniqueVideos []

/-- The per-entry source formatting of `formatSources`: the stored URL is
used when it contains `"http"`, otherwise a YouTube URL is built from the
video id and the floored start time. -/
def toSource (c : MatchResult) : Source :=
  let youtubeUrl :=
    if jsIncludes c.video_url ("http".toList) then c.video_url
    else ("https://www.youtube.com/watch?v=".toList) ++ c.video_id ++ ("&t=".toList)
      ++ mathFloorToChars c.start_time
  { title := c.video_title
    url := youtubeUrl
    timestamp := c.start_time
    speaker := c.metadata.speaker.map SpeakerRef.name }

/-- Model of `formatSources` from the chat API route. -/
def formatSources (chunks : List MatchResult) : List Source :=
  (dedupByVideo chunks).map toSource

/-- The speaker names present across the retrieved chunks:
`chunks.map(c => c.metadata?.speaker?.name).filter(s => !!s)` — missing
speakers and the (falsy) empty name are dropped. -/
def speakersOf (chunks : List MatchResult) : List Str :=
  (chunks.filterMap (fun c => c.metadata.speaker.map SpeakerRef.name)).filter
    (fun s => !(s == []))

/-- One step of the vote-counting object: increment an existing key in
place, or append a new key with count 1 (JavaScript object insertion
order). -/
def bump : List (Str × ℕ) → Str → List (Str × ℕ)
  | [], s => [(s, 1)]
  | (k, n) :: rest, s => if k = s then (k, n + 1) :: rest else (k, n) :: bump rest s

/-- The `counts` object of the dominant-speaker vote. -/
def tally (l : List Str) : List (Str × ℕ) := l.foldl bump []

/-- Lookup in the counts object (0 for an absent key). -/
def countOf (counts : List (Str × ℕ)) (s : Str) : ℕ := (counts.lookup s).getD 0

/-- The `reduce` of the dominant-speaker vote over the remaining keys:
`(a, b) => counts[a] > counts[b] ? a : b` — the incumbent survives only
when its count is strictly greater, so a tie moves to the later key. -/
def reduceChampion (cnt : Str → ℕ) (a : Str) (ks : List Str) : Str :=
  ks.foldl (fun x y => if cnt y < cnt x then x else y) a

/-- The generic speaker label used when no speaker metadata exists. -/
def genericSpeaker : Str := "YC Partner".toList

/-- Model of the dominant-speaker selection inlined in the `POST` handler:
majority vote over the speaker names of the retrieved chunks via a counts
object and `Object.keys(counts).reduce(...)`; the generic label is used
when no (truthy) speaker name is present.  (The `match` arm for an empty
key list is unreachable: the keys are non-empty whenever the speaker list
is.) -/
def dominantSpeaker (chunks : List MatchResult) : Str :=
  let speakers := speakersOf chunks
  if 0 < speakers.length then
    let counts := tally speakers
    match counts.map Prod.fst with
    | [] => genericSpeaker
    | k :: ks => reduceChampion (countOf counts) k ks
  else genericSpeaker

/-- The request locale (`"ko" | "en"`, defaulting to `"ko"`). -/
inductive Locale where
  | ko : Locale
  | en : Locale
deriving DecidableEq

/-- A thrown JavaScript error as inspected by the route handler: the
optional numeric `status` and the message. -/
structure JsError where
  status : Option ℕ
  message : Str
deriving DecidableEq

/-- The rate-limit test of `withRetry`:
`err.status === 429 || (err.message && err.message.includes("429"))`. -/
def is429 (e : JsError) : Bool :=
  e.status == some 429 || jsIncludes e.message ("429".toList)

/-- The attempt loop of `withRetry`: `fn` is the outcome of each attempt
(indexed by attempt number); a rate-limited attempt waits and retries, any
other failure is rethrown at once, and exhausting the attempts throws
`Error("Max retries exceeded")` (which carries no `status`). -/
def withRetryAux {T : Type} (fn : ℕ → Except JsError T) : ℕ → ℕ → Except JsError T
  | _, 0 => .error ⟨none, "Max retries exceeded".toList⟩
  | attempt, n + 1 =>
    match fn attempt with
    | .ok v => .ok v
    | .error e => if is429 e then withRetryAux fn (attempt + 1) n else .error e

/-- Model of `withRetry` from the chat API route (default 3 attempts; the
exponential backoff delays are timing-only). -/
def withRetry {T : Type} (fn : ℕ → Except JsError T) (maxRetries : ℕ := 3) :
    Except JsError T :=
  withRetryAux fn 0 maxRetries

/-- The external calls made by the chat API route, as attempt-indexed
oracles: the translation model call (on the translation prompt), the
embedding model call (on the translated query), the `match_knowledge` RPC
(on embedding, threshold and count; `none` data models a null result), and
the answer-generation model call (on the final prompt). -/
structure ChatOracles where
  translateF : Str → ℕ → Except JsError Str
  embedF : Str → ℕ → Except JsError (List ℚ)
  searchF : List ℚ → ℚ → ℕ → Except JsError (Option (List MatchResult))
  genF : Str → ℕ → Except JsError Str

/-- The Hangul test of `translateQueryForEmbedding`
(`/[ㄱ-ㆎ가-힣]/.test(query)`). -/
def hasKorean (s : Str) : Bool :=
  s.any (fun c => (0x3131 ≤ c.toNat && c.toNat ≤ 0x318E)
    || (0xAC00 ≤ c.toNat && c.toNat ≤ 0xD7A3))

/-- The translation prompt built by `translateQueryForEmbedding`. -/
def translatePrompt (query : Str) : Str :=
  ("Translate this Korean startup/business question to English for semantic search. Only output the English translation, nothing else:\n\n".toList)
    ++ query

/-- Model of `translateQueryForEmbedding`: queries without Hangul are
returned unchanged; otherwise the translation call runs under `withRetry`
and any failure falls back to the original query (the catch block). -/
def translateQueryForEmbedding (o : ChatOracles) (query : Str) : Str :=
  if !hasKorean query then query
  else
    match withRetry (o.translateF (translatePrompt query)) with
    | .ok r => trimStr r
    | .error _ => query

/-- Model of `generateQueryEmbedding`: translate, then embed the translated
query under `withRetry`. -/
def generateQueryEmbedding (o : ChatOracles) (query : Str) : Except JsError (List ℚ) :=
  let translatedQuery := translateQueryForEmbedding o query
  withRetry (o.embedF translatedQuery)

/-- The similarity threshold passed to `match_knowledge` by
`searchRelevantChunks` (`match_threshold: 0.15`). -/
def queryThreshold : ℚ := mkRat 15 100

/-- Model of `searchRelevantChunks`: call the `match_knowledge` RPC with
threshold 0.15 and the given count; a search error is rethrown, and null
data degrades to `[]` (`data || []`). -/
def searchRelevantChunks (o : ChatOracles) (embedding : List ℚ) (limit : ℕ) :
    Except JsError (List MatchResult) :=
  match o.searchF embedding queryThreshold limit with
  | .error e => .error e
  | .ok data => .ok (data.getD [])

/-- Model of `buildContext`: label each retrieved chunk (in retrieval
order) with its 1-based index, speaker (falling back to `"Speaker"`) and
video title, and join the blocks with the `---` delimiter. -/
def buildContext (chunks : List MatchResult) : Str :=
  let blocks := chunks.enum.map (fun p =>
    let nm := ((p.2.metadata.speaker.map SpeakerRef.name).getD [])
    let speaker := if nm = [] then ("Speaker".toList) else nm
    ("[Source ".toList) ++ natToChars (p.1 + 1) ++ ("] ".toList) ++ speaker
      ++ (" in \"".toList) ++ p.2.video_title ++ ("\":\n".toList) ++ p.2.content)
  match blocks with
  | [] => []
  | b :: bs => bs.foldl (fun acc x => acc ++ ("\n\n---\n\n".toList) ++ x) b

/-- The persona-bound system prompt of `generateAnswer`, with the dominant
speaker interpolated.  The full persona/output-format text (Korean and
English markdown templates) is abridged here: no verified claim depends on
its wording, only on which prompt the generation oracle receives. -/
def systemPromptBase (locale : Locale) (speaker : Str) : Str :=
  match locale with
  | .ko => ("YC partner persona prompt (ko) for **".toList) ++ speaker
      ++ ("** [persona and output-format template abridged]".toList)
  | .en => ("You are **".toList) ++ speaker
      ++ ("**, a Group Partner at Y Combinator. [persona and output-format template abridged]".toList)

/-- The final prompt assembled by `generateAnswer`. -/
def mkFinalPrompt (question context : Str) (locale : Locale) (speaker : Str) : Str :=
  systemPromptBase locale speaker ++ ("\n\n---\n**Context:**\n".toList) ++ context
    ++ ("\n\n---\n**Question:**\n".toList) ++ question

/-- Model of `generateAnswer`: one generation call on the final prompt,
under `withRetry`. -/
def generateAnswer (o : ChatOracles) (question context : Str) (locale : Locale)
    (speaker : Str) : Except JsError Str :=
  withRetry (o.genF (mkFinalPrompt question context locale speaker))

/-- A JSON response of the route handler: HTTP status plus the fields the
handler can set. -/
structure ApiResponse where
  status : ℕ
  answer : Option Str
  sources : Option (List Source)
  error : Option Str
  details : Option Str
deriving DecidableEq

/-- The fixed no-relevant-content answer, per locale. -/
def noContentAnswer (locale : Locale) : Str :=
  match locale with
  | .ko => "죄송합니다, 관련된 내용을 찾지 못했습니다.".toList
  | .en => "Sorry, I couldn\x27t find relevant content.".toList

/-- The fixed no-content response body with empty sources (status 200). -/
def noContentResponse (locale : Locale) : ApiResponse :=
  { status := 200, answer := some (noContentAnswer locale), sources := some []
    error := none, details := none }

/-- The user-facing throttling message returned on a caught 429. -/
def throttleAnswer : Str :=
  "API 요청 한도에 도달했습니다. 잠시 후 다시 시도해주세요. (약 1분 대기)".toList

/-- The throttling response: status 200 (so the UI shows the message), the
throttle answer, and empty sources. -/
def throttleResponse : ApiResponse :=
  { status := 200, answer := some throttleAnswer, sources := some []
    error := none, details := none }

/-- The catch block of the `POST` handler: an error whose `status` is 429
produces the throttling response; every other error produces the generic
500 response, with the error message as debug detail only in development. -/
def catchResponse (isDev : Bool) (e : JsError) : ApiResponse :=
  if e.status == some 429 then throttleResponse
  else
    { status := 500, answer := none, sources := none
      error := some ("Failed to process request".toList)
      details := if isDev then some e.message else none }

/-- Model of the `POST` handler of the chat API route.  The second
component of the result is ghost instrumentation: it is `true` exactly when
the answer-generation call (`generateAnswer`) was reached.  `isDev` models
`NODE_ENV === "development"`. -/
def POST (o : ChatOracles) (message : Str) (locale : Locale) (isDev : Bool) :
    ApiResponse × Bool :=
  if trimStr message = [] then
    ({ status := 400, answer := none, sources := none
       error := some ("Message is required".toList), details := none }, false)
  else
    match generateQueryEmbedding o message with
    | .error e => (catchResponse isDev e, false)
    | .ok embedding =>
      match searchRelevantChunks o embedding 8 with
      | .error e => (catchResponse isDev e, false)
      | .ok chunks =>
        if chunks.length = 0 then (noContentResponse locale, false)
        else
          match generateAnswer o message (buildContext chunks) locale
              (dominantSpeaker chunks) with
          | .error e => (catchResponse isDev e, true)
          | .ok answer =>
            ({ status := 200, answer := some answer
               sources := some (formatSources chunks)
               error := none, details := none }, true)

/-- A stored row of the `knowledge_base` table as seen by
`match_knowledge` (the embedding column is carried abstractly). -/
structure KBRow where
  id : Str
  content : Str
  source_origin : Str
  video_id : Str
  video_title : Str
  start_time : JsNum
  metadata : MRMetadata
  embedding : List ℚ
deriving DecidableEq

/-- A row returned by `match_knowledge`: the projected columns plus the
computed similarity. -/
structure KBMatch where
  id : Str
  content : Str
  source_origin : Str
  video_id : Str
  video_title : Str
  start_time : JsNum
  metadata : MRMetadata
  similarity : ℚ
deriving DecidableEq

/-- Model of the `match_knowledge` SQL function of
`supabase/migrations/001_knowledge_base.sql`.  The pgvector cosine-distance
operator `<=>` is an oracle `dist`; similarity is `1 - dist`.  Rows pass
the `WHERE` clause when the optional source filter matches and the
similarity is strictly greater than the threshold; they are ordered by
ascending distance (SQL leaves the order of ties unspecified; `mergeSort`
fixes one such order) and truncated to `match_count`. -/
def matchKnowledge (dist : List ℚ → List ℚ → ℚ) (table : List KBRow)
    (queryEmbedding : List ℚ) (matchThreshold : ℚ) (matchCount : ℕ)
    (filterSource : Option Str) : List KBMatch :=
  let eligible := table.filter (fun kb =>
    (match filterSource with
     | none => true
     | some fs => kb.source_origin == fs)
    && decide (matchThreshold < 1 - dist kb.embedding queryEmbedding))
  let sorted := eligible.mergeSort (fun a b =>
    decide (dist a.embedding queryEmbedding ≤ dist b.embedding queryEmbedding))
  (sorted.take matchCount).map (fun kb =>
    { id := kb.id, content := kb.content, source_origin := kb.source_origin
      video_id := kb.video_id, video_title := kb.video_title
      start_time := kb.start_time, metadata := kb.metadata
      similarity := 1 - dist kb.embedding queryEmbedding })

/-! Concrete instances used by witnesses and counterexamples. -/

/-- A retrieved chunk of video `A` with similarity 0.9. -/
def mrA1 : MatchResult :=
  ⟨("i1".toList), ("c1".toList), ("TA".toList), ("http://a".toList), ("A".toList),
    some 10, ⟨some ⟨("Alice".toList), none⟩, none⟩, mkRat 9 10⟩

/-- A retrieved chunk of video `A` with similarity 0.95. -/
def mrA2 : MatchResult :=
  ⟨("i2".toList), ("c2".toList), ("TA".toList), ("http://a".toList), ("A".toList),
    some 20, ⟨some ⟨("Alice".toList), none⟩, none⟩, mkRat 19 20⟩

/-- A retrieved chunk of video `B` with similarity 0.8, spoken by Bob. -/
def mrB : MatchResult :=
  ⟨("i3".toList), ("c3".toList), ("TB".toList), ("http://b".toList), ("B".toList),
    some 30, ⟨some ⟨("Bob".toList), none⟩, none⟩, mkRat 4 5⟩

/-- A transcript with one segment, used by the ingestion witnesses. -/
def exT : TranscriptFile :=
  { video_id := "v1".toList, title := "T".toList, url := "http://u".toList
    source_origin := none, speaker := none, description := none, topics := none
    segments := [⟨("0:00".toList), ("hello".toList)⟩] }

/-- A transcript whose segment list is empty. -/
def exEmptyT : TranscriptFile :=
  { video_id := "v1".toList, title := "T".toList, url := "http://u".toList
    source_origin := none, speaker := none, description := none, topics := none
    segments := [] }

/-- A stored row carrying `exEmptyT`'s identity
(`video_id = "v1"`, `source_origin = "yc_startup_school"`). -/
def exRow0 : Row :=
  { content := "old".toList, embedding := some [1]
    source_origin := DEFAULT_SOURCE_ORIGIN, source_type := "youtube".toList
    video_id := "v1".toList, video_title := "T".toList, video_url := "http://u".toList
    start_time := some 0, end_time := some 0, duration := some 0
    chunk_index := 0, total_chunks := 1
    metadata := ⟨("t0".toList), ("file".toList), none, none, []⟩ }

/-- A constant embedding oracle. -/
def embedOne : Str → List ℚ := fun _ => [1]

/-- Chat oracles whose similarity search succeeds with zero matches. -/
def oEmpty : ChatOracles :=
  { translateF := fun _ _ => .ok ("t".toList)
    embedF := fun _ _ => .ok [1]
    searchF := fun _ _ _ => .ok (some [])
    genF := fun _ _ => .ok ("ans".toList) }

/-- Chat oracles whose embedding call is rate-limited (HTTP 429) on every
attempt. -/
def o429 : ChatOracles :=
  { translateF := fun _ _ => .ok ("t".toList)
    embedF := fun _ _ => .error ⟨some 429, "Too Many Requests".toList⟩
    searchF := fun _ _ _ => .ok (some [])
    genF := fun _ _ => .ok ("a".toList) }

/-- Chat oracles whose similarity search throws an error carrying status
429 (search calls are not wrapped in `withRetry`). -/
def oSearch429 : ChatOracles :=
  { translateF := fun _ _ => .ok ("t".toList)
    embedF := fun _ _ => .ok [1]
    searchF := fun _ _ _ => .error ⟨some 429, "Too Many Requests".toList⟩
    genF := fun _ _ => .ok ("a".toList) }

/-- A stored knowledge-base row used by the retrieval witness. -/
def kb1 : KBRow :=
  ⟨("i1".toList), ("c1".toList), ("yc".toList), ("A".toList), ("TA".toList),
    some 0, ⟨none, none⟩, [1]⟩

/-- A distance oracle that reports distance 0 (similarity 1). -/
def dist0 : List ℚ → List ℚ → ℚ := fun _ _ => 0

/-- The match row produced for `kb1` under `dist0`. -/
def exKBMatch : KBMatch :=
  ⟨("i1".toList), ("c1".toList), ("yc".toList), ("A".toList), ("TA".toList),
    some 0, ⟨none, none⟩, 1⟩

/-! Helper lemmas. -/

/-- Inserting in batches of 50 appends all rows in order. -/
theorem insertBatches_eq_append (db rows : List Row) : insertBatches db rows = db ++ rows := by
  rw [insertBatches]
  by_cases h : rows = []
  · simp [h]
  · simp only [if_neg h]
    rw [insertBatches_eq_append (db ++ rows.take 50) (rows.drop 50)]
    rw [List.append_assoc, List.take_append_drop]
termination_by rows.length
decreasing_by
  simp only [List.length_drop]
  have := List.length_pos.mpr h
  omega

/-- Every row built by `mkRows` carries the transcript's identity. -/
theorem mkRows_identity (chunks : List Chunk) (embeddings : List (List ℚ))
    (t : TranscriptFile) (now : Str) :
    ∀ r ∈ mkRows chunks embeddings t now,
      r.video_id = t.video_id ∧ r.source_origin = sourceOriginOf t := by
  intro r hr
  simp only [mkRows, List.mem_map] at hr
  obtain ⟨p, _, rfl⟩ := hr
  exact ⟨rfl, rfl⟩

/-- Rows built by `mkRows` all pass the identity filter. -/
theorem mkRows_matches (chunks : List Chunk) (embeddings : List (List ℚ))
    (t : TranscriptFile) (now : Str) :
    ∀ r ∈ mkRows chunks embeddings t now, matchesIdentity t r = true := by
  intro r hr
  obtain ⟨h1, h2⟩ := mkRows_identity chunks embeddings t now r hr
  simp [matchesIdentity, h1, h2]

/-- When every attempt fails with a rate-limit signal, `withRetryAux`
exhausts its attempts and throws `Error("Max retries exceeded")`. -/
theorem withRetryAux_exhausted {T : Type} (fn : ℕ → Except JsError T)
    (h : ∀ n, ∃ e, fn n = .error e ∧ is429 e = true) :
    ∀ k a, withRetryAux fn a k = .error ⟨none, ("Max retries exceeded".toList)⟩ := by
  intro k
  induction k with
  | zero => intro a; rfl
  | succ n ih =>
    intro a
    obtain ⟨e, he, h429⟩ := h a
    simp only [withRetryAux, he, h429, if_true]
    exact ih (a + 1)

/-! Claim C9 (corrected). -/

/-- C9 counterexample: the claim states that every malformed time string
yields 0 or is skipped before conversion.  But `"aa:bb"` (two colon-parts
of non-numeric text) is converted to `NaN`, not 0 — and it is not skipped:
`chunkTranscript` converts every segment time, so a segment carrying this
time string produces a chunk whose start and end times are `NaN`. -/
theorem parse_time_counterexample :
    parseTimeToSeconds ("aa:bb".toList) = none
    ∧ parseTimeToSeconds ("aa:bb".toList) ≠ some 0
    ∧ chunkTranscript [⟨("aa:bb".toList), ("x".toList)⟩]
        = [⟨("x".toList), none, none, 0⟩] := by
  refine ⟨by decide, by decide, by decide⟩

/-- C9 (amended): `parseTimeToSeconds` maps `"1:23"` to 83 and `"1:02:03"`
to 3723, never throws (it is a total function), and yields 0 for every
string whose colon-split has other than 2 or 3 parts; a malformed string
with exactly 2 or 3 colon-parts instead yields `NaN` (see the
counterexample). -/
theorem parse_time_amended :
    parseTimeToSeconds ("1:23".toList) = some 83
    ∧ parseTimeToSeconds ("1:02:03".toList) = some 3723
    ∧ ∀ s : Str, (splitOnChar ':' s).length ≠ 2 → (splitOnChar ':' s).length ≠ 3 →
        parseTimeToSeconds s = some 0 := by
  refine ⟨by decide, by decide, ?_⟩
  intro s h2 h3
  unfold parseTimeToSeconds
  rcases hsp : splitOnChar ':' s with _ | ⟨a, _ | ⟨b, _ | ⟨c, _ | ⟨d, l⟩⟩⟩⟩ <;>
    simp_all [hsp]

/-- C9 witness: the amended theorem applied to the concrete malformed
string `"1:2:3:4"` (four colon-parts), which yields 0. -/
theorem parse_time_amended_witness :
    parseTimeToSeconds ("1:2:3:4".toList) = some 0 :=
  parse_time_amended.2.2 ("1:2:3:4".toList) (by decide) (by decide)

/-! Claim C4 (corrected). -/

/-- C4 counterexample: the claim states that ingesting a transcript with
zero segments fails before any datastore operation, leaving the stored rows
for its identity unchanged.  But `ingestFile` has no emptiness check: for
`exEmptyT` (zero segments) ingestion runs to completion with zero chunks,
and the delete for the identity is still executed — the pre-existing row
`exRow0` is removed and the resulting datastore differs from the original. -/
theorem ingest_empty_counterexample :
    chunkTranscript exEmptyT.segments = []
    ∧ ingestFile embedOne exEmptyT [exRow0] ("t1".toList) = []
    ∧ ingestFile embedOne exEmptyT [exRow0] ("t1".toList) ≠ [exRow0] := by
  have h : ingestFile embedOne exEmptyT [exRow0] ("t1".toList) = [] := by
    simp only [ingestFile, upsertChunks, insertBatches_eq_append]
    decide
  exact ⟨by decide, h, by rw [h]; decide⟩

/-- C4 (amended): ingestion of a transcript with zero segments is not
rejected; it succeeds with zero chunks (so zero rows are inserted), but the
delete for the `(source_origin, video_id)` identity is still executed, so
the resulting datastore is the original with every row of that identity
removed. -/
theorem ingest_empty_amended (embed : Str → List ℚ) (t : TranscriptFile)
    (db : List Row) (now : Str) (h : t.segments = []) :
    chunkTranscript t.segments = []
    ∧ ingestFile embed t db now = db.filter (fun r => !(matchesIdentity t r)) := by
  constructor
  · rw [h]; rfl
  · simp only [ingestFile, upsertChunks, insertBatches_eq_append, h]
    simp [mkRows, chunkTranscript, chunkLoop, generateEmbeddingsWithDelay]

/-- C4 witness: the amended theorem applied to `exEmptyT` over a datastore
holding one row of the same identity, which the delete removes. -/
theorem ingest_empty_amended_witness :
    chunkTranscript exEmptyT.segments = []
    ∧ ingestFile embedOne exEmptyT [exRow0] ("t1".toList)
        = [exRow0].filter (fun r => !(matchesIdentity exEmptyT r)) :=
  ingest_empty_amended embedOne exEmptyT [exRow0] ("t1".toList) rfl

/-! Claim C1 (confirmed). -/

/-- C1: ingestion is idempotent by full replacement.  After two successive
successful ingestions sharing the same `(source_origin, video_id)`
identity, the datastore holds exactly the rows built by the second
ingestion for that identity (the delete precedes every insert, so no row of
the first ingestion and no older duplicate survives), and rows of other
identities are exactly those of the original datastore. -/
theorem ingest_full_replacement (db : List Row) (t1 t2 : TranscriptFile)
    (c1 c2 : List Chunk) (e1 e2 : List (List ℚ)) (now1 now2 : Str)
    (hv : t1.video_id = t2.video_id) (hs : sourceOriginOf t1 = sourceOriginOf t2) :
    ((upsertChunks (upsertChunks db c1 e1 t1 now1) c2 e2 t2 now2).filter
        (fun r => matchesIdentity t2 r)
      = mkRows c2 e2 t2 now2)
    ∧ ((upsertChunks (upsertChunks db c1 e1 t1 now1) c2 e2 t2 now2).filter
        (fun r => !(matchesIdentity t2 r))
      = db.filter (fun r => !(matchesIdentity t2 r))) := by
  have hmatch : matchesIdentity t1 = matchesIdentity t2 := by
    funext r
    simp [matchesIdentity, hv, hs]
  have hrows1 : ∀ r ∈ mkRows c1 e1 t1 now1, matchesIdentity t2 r = true := by
    intro r hr
    rw [← hmatch]
    exact mkRows_matches c1 e1 t1 now1 r hr
  have hrows2 : ∀ r ∈ mkRows c2 e2 t2 now2, matchesIdentity t2 r = true :=
    mkRows_matches c2 e2 t2 now2
  simp only [upsertChunks, insertBatches_eq_append, hmatch]
  have hrows1nil : (mkRows c1 e1 t1 now1).filter (fun r => !(matchesIdentity t2 r)) = [] := by
    rw [List.filter_eq_nil_iff]
    intro a ha
    simp [hrows1 a ha]
  have hrows2nil : (mkRows c2 e2 t2 now2).filter (fun r => !(matchesIdentity t2 r)) = [] := by
    rw [List.filter_eq_nil_iff]
    intro a ha
    simp [hrows2 a ha]
  have hfself : (db.filter (fun r => !(matchesIdentity t2 r))).filter
      (fun r => !(matchesIdentity t2 r)) = db.filter (fun r => !(matchesIdentity t2 r)) := by
    apply List.filter_eq_self.mpr
    intro a ha
    exact (List.mem_filter.mp ha).2
  have hfm2nil : (db.filter (fun r => !(matchesIdentity t2 r))).filter
      (fun r => matchesIdentity t2 r) = [] := by
    rw [List.filter_eq_nil_iff]
    intro a ha
    have h2 := (List.mem_filter.mp ha).2
    simp only [Bool.not_eq_true'] at h2
    simp [h2]
  have hrows2self : (mkRows c2 e2 t2 now2).filter (fun r => matchesIdentity t2 r)
      = mkRows c2 e2 t2 now2 := List.filter_eq_self.mpr hrows2
  have hdb1 : ((db.filter (fun r => !(matchesIdentity t2 r)) ++ mkRows c1 e1 t1 now1).filter
      (fun r => !(matchesIdentity t2 r))) = db.filter (fun r => !(matchesIdentity t2 r)) := by
    rw [List.filter_append, hfself, hrows1nil, List.append_nil]
  constructor
  · rw [List.filter_append, hdb1, hfm2nil, hrows2self, List.nil_append]
  · rw [List.filter_append, hdb1, hfself, hrows2nil, List.append_nil]

/-- C1 witness: the full-replacement theorem applied to a concrete
transcript ingested twice (with different chunk contents) over an empty
datastore. -/
theorem ingest_full_replacement_witness :
    ((upsertChunks (upsertChunks [] [⟨("a".toList), some 0, some 0, 0⟩] [[1]] exT ("t1".toList))
        [⟨("b".toList), some 0, some 7, 0⟩] [[2]] exT ("t2".toList)).filter
        (fun r => matchesIdentity exT r)
      = mkRows [⟨("b".toList), some 0, some 7, 0⟩] [[2]] exT ("t2".toList))
    ∧ ((upsertChunks (upsertChunks [] [⟨("a".toList), some 0, some 0, 0⟩] [[1]] exT ("t1".toList))
        [⟨("b".toList), some 0, some 7, 0⟩] [[2]] exT ("t2".toList)).filter
        (fun r => !(matchesIdentity exT r))
      = List.filter (fun r => !(matchesIdentity exT r)) []) :=
  ingest_full_replacement [] exT exT [⟨("a".toList), some 0, some 0, 0⟩]
    [⟨("b".toList), some 0, some 7, 0⟩] [[1]] [[2]] ("t1".toList) ("t2".toList) rfl rfl

/-! Claim C2 (confirmed). -/

/-- C2: when the retrieval step returns zero chunks, the `POST` handler
returns the fixed no-relevant-content answer in the request locale together
with an empty sources list, and the answer-generation call is never reached
(the ghost flag is `false`).  The hypotheses say that the request passes
the emptiness check, that embedding succeeds, and that the search returns
zero chunks. -/
theorem empty_retrieval_no_generation (o : ChatOracles) (message : Str)
    (locale : Locale) (isDev : Bool) (emb : List ℚ)
    (hmsg : trimStr message ≠ [])
    (hemb : generateQueryEmbedding o message = .ok emb)
    (hsearch : searchRelevantChunks o emb 8 = .ok []) :
    POST o message locale isDev = (noContentResponse locale, false) := by
  unfold POST
  rw [if_neg hmsg, hemb]
  dsimp only
  rw [hsearch]
  rfl

/-- C2 witness: the theorem applied to oracles whose search succeeds with
zero matches; the handler answers with the fixed no-content response and
the generation flag stays `false`. -/
theorem empty_retrieval_no_generation_witness :
    POST oEmpty ("hi".toList) .en false = (noContentResponse .en, false) :=
  empty_retrieval_no_generation oEmpty ("hi".toList) .en false [1]
    (by decide) rfl rfl

/-! Claim C8 (corrected). -/

/-- C8 counterexample: the claim states that a rate limit persisting
through all retry attempts still yields the non-error throttling response.
But `withRetry` converts an exhausted rate limit into
`Error("Max retries exceeded")`, which carries no `status`, so the catch
block's `err.status === 429` test fails and the handler returns the
generic 500 error response — not the throttling message. -/
theorem rate_limit_counterexample :
    POST o429 ("hello".toList) .en false
      = ({ status := 500, answer := none, sources := none
           error := some ("Failed to process request".toList), details := none }, false)
    ∧ (POST o429 ("hello".toList) .en false).1.status ≠ 200
    ∧ (POST o429 ("hello".toList) .en false).1.answer ≠ some throttleAnswer := by
  refine ⟨by decide, by decide, by decide⟩

/-- C8 (amended): an error that reaches the handler's catch block carrying
`status = 429` — in this pipeline, a similarity-search failure, since the
search is not wrapped in `withRetry` — produces the status-200 throttling
response with empty sources; but a rate limit that persists through every
`withRetry` attempt of the embedding call surfaces as
`Error("Max retries exceeded")` without a status and produces the generic
500 response.  Only the explicit `status = 429` check selects the
throttling response. -/
theorem rate_limit_amended (o : ChatOracles) (message : Str) (locale : Locale)
    (isDev : Bool) (hmsg : trimStr message ≠ []) :
    (∀ e emb, e.status = some 429 →
      generateQueryEmbedding o message = .ok emb →
      o.searchF emb queryThreshold 8 = .error e →
      POST o message locale isDev = (throttleResponse, false))
    ∧ ((∀ n, ∃ e, o.embedF (translateQueryForEmbedding o message) n = .error e
          ∧ is429 e = true) →
      POST o message locale isDev
        = (catchResponse isDev ⟨none, ("Max retries exceeded".toList)⟩, false)
      ∧ (catchResponse isDev ⟨none, ("Max retries exceeded".toList)⟩).status = 500) := by
  constructor
  · intro e emb h429 hemb hsearch
    have hs : searchRelevantChunks o emb 8 = .error e := by
      unfold searchRelevantChunks
      rw [hsearch]
    unfold POST
    rw [if_neg hmsg, hemb]
    dsimp only
    rw [hs]
    dsimp only
    simp [catchResponse, h429]
  · intro hrl
    have hemb : generateQueryEmbedding o message
        = .error ⟨none, ("Max retries exceeded".toList)⟩ := by
      unfold generateQueryEmbedding withRetry
      exact withRetryAux_exhausted _ hrl 3 0
    constructor
    · unfold POST
      rw [if_neg hmsg, hemb]
    · simp [catchResponse]


/-- C8 witness: the amended theorem's first part applied to oracles whose
search call throws a status-429 error; the handler returns the throttling
response with status 200 and empty sources. -/
theorem rate_limit_amended_witness :
    POST oSearch429 ("hello".toList) .en false = (throttleResponse, false) :=
  (rate_limit_amended oSearch429 ("hello".toList) .en false (by decide)).1
    ⟨some 429, ("Too Many Requests".toList)⟩ [1] rfl rfl rfl

/-! Claim C10 (confirmed). -/

/-- C10: every row returned by `match_knowledge` at the query-time
parameters (threshold 0.15, count 8) has similarity strictly greater than
the threshold (a row whose similarity equals it is excluded by the strict
`>` of the `WHERE` clause), the rows are ordered by non-increasing
similarity (ascending cosine distance), and at most 8 rows are returned. -/
theorem match_knowledge_postcondition (dist : List ℚ → List ℚ → ℚ)
    (table : List KBRow) (query : List ℚ) (fs : Option Str) :
    (∀ m ∈ matchKnowledge dist table query queryThreshold 8 fs,
      queryThreshold < m.similarity)
    ∧ List.Sorted (fun a b : KBMatch => b.similarity ≤ a.similarity)
        (matchKnowledge dist table query queryThreshold 8 fs)
    ∧ (matchKnowledge dist table query queryThreshold 8 fs).length ≤ 8 := by
  unfold matchKnowledge
  refine ⟨?_, ?_, ?_⟩
  · intro m hm
    simp only [List.mem_map] at hm
    obtain ⟨kb, hkb, rfl⟩ := hm
    have hmem : kb ∈ (List.filter _ table).mergeSort _ :=
      (List.take_sublist 8 _).mem hkb
    have hperm := List.mergeSort_perm (List.filter (fun kb =>
      (match fs with
       | none => true
       | some fsv => kb.source_origin == fsv)
      && decide (queryThreshold < 1 - dist kb.embedding query)) table)
      (fun a b => decide (dist a.embedding query ≤ dist b.embedding query))
    have hin := hperm.mem_iff.mp hmem
    have hp := (List.mem_filter.mp hin).2
    have hd := (Bool.and_elim_right hp)
    exact of_decide_eq_true hd
  · apply List.Pairwise.map
      (R := fun a b : KBRow =>
        decide (dist a.embedding query ≤ dist b.embedding query) = true)
    · intro a b hab
      have : dist a.embedding query ≤ dist b.embedding query := of_decide_eq_true hab
      simp only
      linarith
    · apply List.Pairwise.sublist (List.take_sublist 8 _)
      apply List.sorted_mergeSort
      · intro a b c hab hbc
        have h1 : dist a.embedding query ≤ dist b.embedding query := of_decide_eq_true hab
        have h2 : dist b.embedding query ≤ dist c.embedding query := of_decide_eq_true hbc
        exact decide_eq_true (le_trans h1 h2)
      · intro a b
        rcases le_total (dist a.embedding query) (dist b.embedding query) with h | h
        · simp [decide_eq_true h]
        · simp [decide_eq_true h]
  · rw [List.length_map]
    exact List.length_take_le 8 _

/-- C10 witness: the theorem applied to a one-row table under a distance
oracle reporting distance 0; the returned row has similarity 1 > 0.15. -/
theorem match_knowledge_postcondition_witness :
    queryThreshold < exKBMatch.similarity :=
  (match_knowledge_postcondition dist0 [kb1] [1] none).1 exKBMatch
    (by simp [matchKnowledge, dist0, queryThreshold, List.mergeSort_singleton, kb1, exKBMatch,
      show decide (mkRat 15 100 < (1:ℚ)) = true from by decide])

/-! Claim C6 (corrected). -/

/-- The JavaScript `<=` on numbers is transitive. -/
theorem jsLeB_trans {a b c : JsNum} (h1 : jsLeB a b = true) (h2 : jsLeB b c = true) :
    jsLeB a c = true := by
  cases a <;> cases b <;> cases c <;> simp_all [jsLeB]
  omega

/-- The JavaScript `<=` is reflexive on non-`NaN` numbers. -/
theorem jsLeB_refl {a : JsNum} (h : a.isSome) : jsLeB a a = true := by
  obtain ⟨v, rfl⟩ := Option.isSome_iff_exists.mp h
  simp [jsLeB]

/-- Invariant of the chunking loop: if the pending start time is at most
the last segment time, every upcoming segment time is non-`NaN`, the
upcoming parsed times are non-decreasing, and the last segment time is at
most the first upcoming time, then every emitted chunk satisfies
`startTime <= endTime`. -/
theorem chunkLoop_time_le (segs : List TranscriptSegment) :
    ∀ (buf : List Str) (cc : ℕ) (st lt : JsNum) (idx : ℕ),
    jsLeB st lt = true →
    (∀ s ∈ segs, (parseTimeToSeconds s.time).isSome) →
    List.Chain' (fun a b => jsLeB a b = true)
      (segs.map (fun s => parseTimeToSeconds s.time)) →
    (∀ s, segs.head? = some s → jsLeB lt (parseTimeToSeconds s.time) = true) →
    ∀ c ∈ chunkLoop segs buf cc st lt idx, jsLeB c.startTime c.endTime = true := by
  induction segs with
  | nil =>
    intro buf cc st lt idx hstlt _ _ _ c hc
    unfold chunkLoop at hc
    split at hc
    · rw [List.mem_singleton] at hc
      subst hc
      exact hstlt
    · simp at hc
  | cons s rest ih =>
    intro buf cc st lt idx hstlt hsome hchain hhead
    have hsT : jsLeB lt (parseTimeToSeconds s.time) = true := hhead s rfl
    have hsome_s : (parseTimeToSeconds s.time).isSome := hsome s (List.mem_cons_self _ _)
    have hrefl : jsLeB (parseTimeToSeconds s.time) (parseTimeToSeconds s.time) = true :=
      jsLeB_refl hsome_s
    rw [List.map_cons, List.chain'_cons'] at hchain
    obtain ⟨hnext, hchain2⟩ := hchain
    have hhead2 : ∀ s2, rest.head? = some s2 →
        jsLeB (parseTimeToSeconds s.time) (parseTimeToSeconds s2.time) = true := by
      intro s2 hs2
      apply hnext
      rw [List.head?_map, hs2]
      rfl
    have hsome2 : ∀ x ∈ rest, (parseTimeToSeconds x.time).isSome :=
      fun x hx => hsome x (List.mem_cons_of_mem s hx)
    intro c hc
    unfold chunkLoop at hc
    dsimp only at hc
    split at hc
    · rcases List.mem_cons.mp hc with hceq | hcrest
      · subst hceq
        exact hstlt
      · exact ih _ _ _ _ _ hrefl hsome2 hchain2 hhead2 c hcrest
    · exact ih _ _ _ _ _ (jsLeB_trans hstlt hsT) hsome2 hchain2 hhead2 c hc

/-- C6 counterexample: the claim asserts `startTime <= endTime` for every
chunk with no precondition on the segment times.  But for segments whose
times decrease (`"1:40"` then `"0:00"`), the single produced chunk has
start time 100 and end time 0, and `100 <= 0` is false. -/
theorem chunk_time_counterexample :
    chunkTranscript [⟨("1:40".toList), ("a".toList)⟩, ⟨("0:00".toList), ("b".toList)⟩]
      = [⟨("a b".toList), some 100, some 0, 0⟩]
    ∧ jsLeB (some 100) (some 0) = false := by
  refine ⟨by decide, by decide⟩

/-- C6 (amended): under the precondition that every segment time parses to
a non-`NaN` number and that the parsed times are non-decreasing (the
spec's own "time strictly non-decreasing by construction" assumption),
every chunk produced by `chunkTranscript` satisfies
`startTimeSeconds <= endTimeSeconds`. -/
theorem chunk_time_le_amended (segs : List TranscriptSegment)
    (h1 : ∀ s ∈ segs, (parseTimeToSeconds s.time).isSome)
    (h2 : List.Chain' (fun a b => jsLeB a b = true)
      (segs.map (fun s => parseTimeToSeconds s.time))) :
    ∀ c ∈ chunkTranscript segs, jsLeB c.startTime c.endTime = true := by
  cases segs with
  | nil =>
    intro c hc
    simp [chunkTranscript, chunkLoop] at hc
  | cons s rest =>
    have hz : parseTimeToSeconds ("0:00".toList) = some 0 := by decide
    have hznil : parseTimeToSeconds ([] : Str) = some 0 := by decide
    unfold chunkTranscript
    dsimp only [List.head?]
    by_cases ht : s.time = []
    · rw [if_pos ht, hz]
      apply chunkLoop_time_le (s :: rest) [] 0 (some 0) (some 0) 0 (by decide) h1 h2
      intro s2 hs2
      rw [List.head?_cons, Option.some_inj] at hs2
      subst hs2
      rw [ht, hznil]
      decide
    · rw [if_neg ht]
      apply chunkLoop_time_le (s :: rest) [] 0 _ _ 0
        (jsLeB_refl (h1 s (List.mem_cons_self _ _))) h1 h2
      intro s2 hs2
      rw [List.head?_cons, Option.some_inj] at hs2
      subst hs2
      exact jsLeB_refl (h1 s (List.mem_cons_self _ _))

/-- C6 witness: the amended theorem applied to a two-segment transcript
with non-decreasing times `0:00, 0:07`; the produced chunk runs from 0 to
7 seconds. -/
theorem chunk_time_le_amended_witness :
    jsLeB (some 0) (some 7) = true :=
  chunk_time_le_amended [⟨("0:00".toList), ("a".toList)⟩, ⟨("0:07".toList), ("b".toList)⟩]
    (by decide)
    (by
      simp only [List.map_cons, List.map_nil, List.chain'_cons, List.chain'_singleton, and_true]
      decide)
    ⟨("a b".toList), some 0, some 7, 0⟩ (by decide)

/-! Claim C5 (confirmed). -/

/-- Simulation: the contents of the chunks emitted by the faithful loop are
the joins of the (seed, news) decompositions recorded by the ghost loop,
whenever the faithful buffer is `seed ++ news`. -/
theorem chunkLoop_content_pieces (segs : List TranscriptSegment) :
    ∀ (seed news : List Str) (cc : ℕ) (st lt : JsNum) (idx : ℕ),
    (chunkLoop segs (seed ++ news) cc st lt idx).map Chunk.content
      = (chunkPiecesLoop segs seed news cc).map (fun p => joinSp (p.1 ++ p.2)) := by
  induction segs with
  | nil =>
    intro seed news cc st lt idx
    unfold chunkLoop chunkPiecesLoop
    split
    · rfl
    · rfl
  | cons seg rest ih =>
    intro seed news cc st lt idx
    unfold chunkLoop chunkPiecesLoop
    dsimp only
    by_cases h : targetChars < cc + (trimStr seg.text).length ∧ 0 < (seed ++ news).length
    · rw [if_pos h, if_pos h]
      rw [List.map_cons, List.map_cons]
      have := ih (overlapSeed (seed ++ news)) [trimStr seg.text]
        ((joinSp (takeLast2 (seed ++ news))).length + (trimStr seg.text).length + 1)
        (parseTimeToSeconds seg.time) (parseTimeToSeconds seg.time) (idx + 1)
      rw [← this]
    · rw [if_neg h, if_neg h]
      have := ih seed (news ++ [trimStr seg.text])
        (cc + (trimStr seg.text).length + 1) st (parseTimeToSeconds seg.time) idx
      rw [← this, List.append_assoc]

/-- Flattening the new-text components of the ghost loop recovers the
pending news followed by every remaining segment text, trimmed, in order. -/
theorem chunkPiecesLoop_flatten (segs : List TranscriptSegment) :
    ∀ (seed news : List Str) (cc : ℕ),
    ((chunkPiecesLoop segs seed news cc).map Prod.snd).flatten
      = news ++ segs.map (fun s => trimStr s.text) := by
  induction segs with
  | nil =>
    intro seed news cc
    unfold chunkPiecesLoop
    split
    · simp
    · rename_i hlen
      have hz : seed ++ news = [] := List.eq_nil_of_length_eq_zero (by omega)
      have hn : news = [] := (List.append_eq_nil.mp hz).2
      simp [hn]
  | cons seg rest ih =>
    intro seed news cc
    unfold chunkPiecesLoop
    dsimp only
    by_cases h : targetChars < cc + (trimStr seg.text).length ∧ 0 < (seed ++ news).length
    · rw [if_pos h]
      rw [List.map_cons, List.flatten_cons, ih]
      simp
    · rw [if_neg h, ih]
      simp

/-- The first piece emitted by the ghost loop carries the pending seed. -/
theorem chunkPiecesLoop_head_seed (segs : List TranscriptSegment) :
    ∀ (seed news : List Str) (cc : ℕ) (p : List Str × List Str),
    (chunkPiecesLoop segs seed news cc).head? = some p → p.1 = seed := by
  induction segs with
  | nil =>
    intro seed news cc p hp
    unfold chunkPiecesLoop at hp
    split at hp
    · rw [List.head?_cons, Option.some_inj] at hp
      subst hp
      rfl
    · simp at hp
  | cons seg rest ih =>
    intro seed news cc p hp
    unfold chunkPiecesLoop at hp
    dsimp only at hp
    split at hp
    · rw [List.head?_cons, Option.some_inj] at hp
      subst hp
      rfl
    · exact ih _ _ _ _ hp

/-- Consecutive pieces are linked by the overlap-seeding rule: every
non-first piece's seed is exactly `overlapSeed` of the full previous
buffer. -/
theorem chunkPiecesLoop_chain (segs : List TranscriptSegment) :
    ∀ (seed news : List Str) (cc : ℕ),
    List.Chain' (fun p q : List Str × List Str => q.1 = overlapSeed (p.1 ++ p.2))
      (chunkPiecesLoop segs seed news cc) := by
  induction segs with
  | nil =>
    intro seed news cc
    unfold chunkPiecesLoop
    split
    · exact List.chain'_singleton _
    · exact List.chain'_nil
  | cons seg rest ih =>
    intro seed news cc
    unfold chunkPiecesLoop
    dsimp only
    by_cases h : targetChars < cc + (trimStr seg.text).length ∧ 0 < (seed ++ news).length
    · rw [if_pos h]
      rw [List.chain'_cons']
      refine ⟨?_, ih _ _ _⟩
      intro q hq
      exact chunkPiecesLoop_head_seed rest _ _ _ q hq
    · rw [if_neg h]
      exact ih _ _ _

/-- C5: chunking loses, reorders and splits nothing.  Every chunk's content
is the space-join of its (seed, news) decomposition, where the seed of the
first chunk is empty and the seed of each later chunk is exactly the
duplicated overlap text computed from the previous chunk's buffer, and the
new texts, concatenated across chunks in order, are exactly the trimmed
segment texts in their original order. -/
theorem chunking_reconstruction (segs : List TranscriptSegment) :
    ((chunkTranscript segs).map Chunk.content
      = (chunkPieces segs).map (fun p => joinSp (p.1 ++ p.2)))
    ∧ (((chunkPieces segs).map Prod.snd).flatten = segs.map (fun s => trimStr s.text))
    ∧ (∀ p, (chunkPieces segs).head? = some p → p.1 = [])
    ∧ List.Chain' (fun p q : List Str × List Str => q.1 = overlapSeed (p.1 ++ p.2))
        (chunkPieces segs) := by
  refine ⟨?_, ?_, ?_, ?_⟩
  · have := chunkLoop_content_pieces segs [] [] 0
    unfold chunkTranscript chunkPieces
    exact this _ _ _
  · have := chunkPiecesLoop_flatten segs [] [] 0
    unfold chunkPieces
    simpa using this
  · intro p hp
    exact chunkPiecesLoop_head_seed segs [] [] 0 p hp
  · exact chunkPiecesLoop_chain segs [] [] 0

/-- C5 witness: the reconstruction theorem applied to a concrete
two-segment transcript, whose single chunk decomposes with an empty seed
and new texts `hello`, `world`. -/
theorem chunking_reconstruction_witness :
    (([], [("hello".toList), ("world".toList)]) : List Str × List Str).1 = ([] : List Str) :=
  (chunking_reconstruction
    [⟨("0:00".toList), ("hello".toList)⟩, ⟨("0:07".toList), ("world".toList)⟩]).2.2.1
    ([], [("hello".toList), ("world".toList)]) (by decide)

/-! Claim C7 (corrected). -/

/-- The champion of the vote reduce is one of the candidates. -/
theorem reduceChampion_mem (cnt : Str → ℕ) (ks : List Str) :
    ∀ a, reduceChampion cnt a ks ∈ a :: ks := by
  induction ks with
  | nil => intro a; simp [reduceChampion]
  | cons b rest ih =>
    intro a
    have step : reduceChampion cnt a (b :: rest)
        = reduceChampion cnt (if cnt b < cnt a then a else b) rest := rfl
    rw [step]
    have := ih (if cnt b < cnt a then a else b)
    rcases List.mem_cons.mp this with h | h
    · rw [h]
      by_cases hc : cnt b < cnt a <;> simp [hc]
    · simp [List.mem_cons.mpr (Or.inr (List.mem_cons.mpr (Or.inr h)))]

/-- The champion's count is maximal among the candidates. -/
theorem reduceChampion_max (cnt : Str → ℕ) (ks : List Str) :
    ∀ a k, k ∈ a :: ks → cnt k ≤ cnt (reduceChampion cnt a ks) := by
  induction ks with
  | nil =>
    intro a k hk
    rw [List.mem_singleton] at hk
    subst hk
    exact le_refl _
  | cons b rest ih =>
    intro a k hk
    have step : reduceChampion cnt a (b :: rest)
        = reduceChampion cnt (if cnt b < cnt a then a else b) rest := rfl
    rw [step]
    have hstep_a : cnt a ≤ cnt (if cnt b < cnt a then a else b) := by
      by_cases hc : cnt b < cnt a
      · rw [if_pos hc]
      · rw [if_neg hc]
        omega
    have hstep_b : cnt b ≤ cnt (if cnt b < cnt a then a else b) := by
      by_cases hc : cnt b < cnt a
      · rw [if_pos hc]
        omega
      · rw [if_neg hc]
    have hhead := ih (if cnt b < cnt a then a else b) (if cnt b < cnt a then a else b)
      (List.mem_cons_self _ _)
    rcases List.mem_cons.mp hk with h | h
    · subst h
      exact le_trans hstep_a hhead
    · rcases List.mem_cons.mp h with h2 | h2
      · subst h2
        exact le_trans hstep_b hhead
      · exact ih _ k (List.mem_cons_of_mem _ h2)

/-- Among the candidates whose count equals the champion's, the champion is
the last in candidate order (a tie moves to the later key). -/
theorem reduceChampion_last (cnt : Str → ℕ) (ks : List Str) :
    ∀ a, ((a :: ks).filter
        (fun k => cnt k == cnt (reduceChampion cnt a ks))).getLast?
      = some (reduceChampion cnt a ks) := by
  induction ks with
  | nil =>
    intro a
    simp [reduceChampion, List.filter]
  | cons b rest ih =>
    intro a
    have step : reduceChampion cnt a (b :: rest)
        = reduceChampion cnt (if cnt b < cnt a then a else b) rest := rfl
    rw [step]
    have hIH := ih (if cnt b < cnt a then a else b)
    by_cases hc : cnt b < cnt a
    · rw [if_pos hc] at hIH ⊢
      have hmaxa : cnt a ≤ cnt (reduceChampion cnt a rest) :=
        reduceChampion_max cnt rest a a (List.mem_cons_self _ _)
      have hbne : (cnt b == cnt (reduceChampion cnt a rest)) = false := by
        rw [beq_eq_false_iff_ne]
        omega
      simp only [List.filter_cons, hbne, Bool.false_eq_true, if_false] at hIH ⊢
      exact hIH
    · rw [if_neg hc] at hIH ⊢
      by_cases hpa : (cnt a == cnt (reduceChampion cnt b rest)) = true
      · rw [List.filter_cons, if_pos hpa, List.getLast?_cons, hIH]
        rfl
      · rw [List.filter_cons, if_neg hpa]
        exact hIH

/-- Counting through one `bump` step. -/
theorem countOf_bump (acc : List (Str × ℕ)) (s0 s : Str) :
    countOf (bump acc s0) s = countOf acc s + (if s = s0 then 1 else 0) := by
  induction acc with
  | nil =>
    by_cases h : s = s0
    · subst h
      simp [bump, countOf, List.lookup]
    · have hb : (s == s0) = false := beq_eq_false_iff_ne.mpr h
      simp [bump, countOf, List.lookup, hb, h]
  | cons kv rest ih =>
    obtain ⟨k, n⟩ := kv
    by_cases hk : k = s0
    · subst hk
      by_cases hs : s = k
      · subst hs
        simp [bump, countOf, List.lookup]
      · have hb : (s == k) = false := beq_eq_false_iff_ne.mpr hs
        simp [bump, countOf, List.lookup, hb, hs]
    · have hbump : bump ((k, n) :: rest) s0 = (k, n) :: bump rest s0 := by
        simp [bump, hk]
      rw [hbump]
      by_cases hs : s = k
      · subst hs
        simp [countOf, List.lookup, hk]
      · have hb : (s == k) = false := beq_eq_false_iff_ne.mpr hs
        simp only [countOf, List.lookup, hb]
        exact ih

/-- Key membership through one `bump` step. -/
theorem keys_bump (acc : List (Str × ℕ)) (s0 s : Str) :
    s ∈ (bump acc s0).map Prod.fst ↔ s ∈ acc.map Prod.fst ∨ s = s0 := by
  induction acc with
  | nil => simp [bump]
  | cons kv rest ih =>
    obtain ⟨k, n⟩ := kv
    by_cases hk : k = s0
    · subst hk
      simp [bump]
      tauto
    · have hbump : bump ((k, n) :: rest) s0 = (k, n) :: bump rest s0 := by
        simp [bump, hk]
      rw [hbump]
      simp only [List.map_cons, List.mem_cons, ih]
      tauto

/-- The counts object counts exactly the occurrences in the list. -/
theorem countOf_tally_aux (l : List Str) :
    ∀ (acc : List (Str × ℕ)) (s : Str),
    countOf (l.foldl bump acc) s = countOf acc s + l.count s := by
  induction l with
  | nil => intro acc s; simp
  | cons x rest ih =>
    intro acc s
    rw [List.foldl_cons, ih (bump acc x) s, countOf_bump]
    by_cases h : s = x
    · subst h
      rw [if_pos rfl, List.count_cons_self]
      omega
    · rw [if_neg h, List.count_cons_of_ne h]
      omega

/-- `countOf (tally l) = l.count`. -/
theorem countOf_tally (l : List Str) (s : Str) : countOf (tally l) s = l.count s := by
  rw [tally, countOf_tally_aux]
  simp [countOf]

/-- The keys of the counts object are exactly the names occurring in the
list. -/
theorem keys_tally_aux (l : List Str) :
    ∀ (acc : List (Str × ℕ)) (s : Str),
    s ∈ (l.foldl bump acc).map Prod.fst ↔ s ∈ acc.map Prod.fst ∨ s ∈ l := by
  induction l with
  | nil => intro acc s; simp
  | cons x rest ih =>
    intro acc s
    rw [List.foldl_cons, ih (bump acc x) s, keys_bump]
    simp only [List.mem_cons]
    tauto

/-- Key membership in `tally` is occurrence in the list. -/
theorem keys_tally (l : List Str) (s : Str) :
    s ∈ (tally l).map Prod.fst ↔ s ∈ l := by
  rw [tally, keys_tally_aux]
  simp

/-- C7 counterexample: the claim states that ties for the maximal count are
broken by the first-encountered name.  For chunks whose speakers are
`Alice, Alice, Bob, Bob` (a 2–2 tie, Alice encountered first), the code's
reduce keeps the incumbent only on a strictly greater count, so it selects
`Bob` — the last-encountered tied name — not `Alice`. -/
theorem dominant_speaker_counterexample :
    speakersOf [mrA1, mrA2, mrB, mrB]
      = [("Alice".toList), ("Alice".toList), ("Bob".toList), ("Bob".toList)]
    ∧ dominantSpeaker [mrA1, mrA2, mrB, mrB] = ("Bob".toList)
    ∧ ("Bob".toList) ≠ ("Alice".toList) := by
  refine ⟨by decide, by decide, by decide⟩

/-- C7 (amended): the dominant speaker is a speaker name occurring with
maximal count among the chunks' speaker metadata; when several names tie
for the maximal count, the *last*-encountered name in key iteration order
(first-occurrence order of names) is chosen; when no chunk carries a
(truthy) speaker name, the generic label `"YC Partner"` is used. -/
theorem dominant_speaker_amended (chunks : List MatchResult) :
    (speakersOf chunks = [] → dominantSpeaker chunks = genericSpeaker)
    ∧ (speakersOf chunks ≠ [] →
        dominantSpeaker chunks ∈ speakersOf chunks
        ∧ (∀ s ∈ speakersOf chunks,
            (speakersOf chunks).count s
              ≤ (speakersOf chunks).count (dominantSpeaker chunks))
        ∧ (((tally (speakersOf chunks)).map Prod.fst).filter
              (fun k => (speakersOf chunks).count k
                == (speakersOf chunks).count (dominantSpeaker chunks))).getLast?
            = some (dominantSpeaker chunks)) := by
  constructor
  · intro h
    unfold dominantSpeaker
    rw [h]
    rfl
  · intro h
    have hlen : 0 < (speakersOf chunks).length := List.length_pos.mpr h
    obtain ⟨s0, hs0⟩ := List.exists_mem_of_ne_nil _ h
    have hs0k : s0 ∈ (tally (speakersOf chunks)).map Prod.fst :=
      (keys_tally _ s0).mpr hs0
    rcases hkeys : (tally (speakersOf chunks)).map Prod.fst with _ | ⟨k, ks⟩
    · rw [hkeys] at hs0k
      simp at hs0k
    · have hd : dominantSpeaker chunks
          = reduceChampion (countOf (tally (speakersOf chunks))) k ks := by
        unfold dominantSpeaker
        dsimp only
        rw [if_pos hlen, hkeys]
      set cnt := countOf (tally (speakersOf chunks)) with hcnt
      set d := reduceChampion cnt k ks with hdd
      have hcnteq : ∀ x, cnt x = (speakersOf chunks).count x := fun x => countOf_tally _ x
      have hdmemk : d ∈ k :: ks := reduceChampion_mem cnt ks k
      have hdmem : d ∈ speakersOf chunks := by
        have : d ∈ (tally (speakersOf chunks)).map Prod.fst := by
          rw [hkeys]
          exact hdmemk
        exact (keys_tally _ d).mp this
      refine ⟨by rw [hd]; exact hdmem, ?_, ?_⟩
      · intro s hs
        have hsk : s ∈ k :: ks := by
          have : s ∈ (tally (speakersOf chunks)).map Prod.fst := (keys_tally _ s).mpr hs
          rw [hkeys] at this
          exact this
        have := reduceChampion_max cnt ks k s hsk
        rw [hd, ← hcnteq, ← hcnteq]
        exact this
      · rw [hd]
        have hfun : (fun x => (speakersOf chunks).count x
            == (speakersOf chunks).count d)
            = (fun x => cnt x == cnt d) := by
          funext x
          rw [hcnteq, hcnteq]
        rw [hfun]
        exact reduceChampion_last cnt ks k

/-- C7 witness: the amended theorem applied to the 2–2 tie example; the
chosen speaker is one of the occurring names with maximal count. -/
theorem dominant_speaker_amended_witness :
    dominantSpeaker [mrA1, mrA2, mrB, mrB] ∈ speakersOf [mrA1, mrA2, mrB, mrB] :=
  ((dominant_speaker_amended [mrA1, mrA2, mrB, mrB]).2 (by decide)).1

/-! Claim C3 (confirmed). -/

/-- The keys of the `uniqueVideos` map after one insertion: unchanged when
the video id is already a key, otherwise appended at the end. -/
theorem keys_updateUniqueVideos (acc : List MatchResult) (c : MatchResult) :
    (updateUniqueVideos acc c).map MatchResult.video_id
      = if c.video_id ∈ acc.map MatchResult.video_id
        then acc.map MatchResult.video_id
        else acc.map MatchResult.video_id ++ [c.video_id] := by
  induction acc with
  | nil => simp [updateUniqueVideos]
  | cons e rest ih =>
    by_cases he : e.video_id = c.video_id
    · simp only [updateUniqueVideos, if_pos he]
      by_cases hsim : e.similarity < c.similarity
      · rw [if_pos hsim]
        simp [he]
      · rw [if_neg hsim]
        simp [he]
    · simp only [updateUniqueVideos, if_neg he]
      rw [List.map_cons, List.map_cons, ih]
      have hne : c.video_id ≠ e.video_id := fun hx => he hx.symm
      by_cases hc : c.video_id ∈ rest.map MatchResult.video_id
      · rw [if_pos hc, if_pos (List.mem_cons.mpr (Or.inr hc))]
      · rw [if_neg hc, if_neg (by
          intro hx
          rcases List.mem_cons.mp hx with h | h
          · exact hne h
          · exact hc h)]
        rfl

/-- Every entry of the map after an insertion is an old entry or the
inserted chunk. -/
theorem mem_updateUniqueVideos (acc : List MatchResult) (c e : MatchResult)
    (h : e ∈ updateUniqueVideos acc c) : e ∈ acc ∨ e = c := by
  induction acc with
  | nil =>
    simp [updateUniqueVideos] at h
    exact Or.inr h
  | cons f rest ih =>
    by_cases hf : f.video_id = c.video_id
    · simp only [updateUniqueVideos, if_pos hf] at h
      by_cases hsim : f.similarity < c.similarity
      · rw [if_pos hsim] at h
        rcases List.mem_cons.mp h with h2 | h2
        · exact Or.inr h2
        · exact Or.inl (List.mem_cons_of_mem _ h2)
      · rw [if_neg hsim] at h
        exact Or.inl h
    · simp only [updateUniqueVideos, if_neg hf] at h
      rcases List.mem_cons.mp h with h2 | h2
      · exact Or.inl (h2 ▸ List.mem_cons_self _ _)
      · rcases ih h2 with h3 | h3
        · exact Or.inl (List.mem_cons_of_mem _ h3)
        · exact Or.inr h3

/-- An old entry that survives an insertion of a chunk with its own video
id has at least the inserted similarity (it was kept because the strict
comparison failed). -/
theorem update_kept_max (acc : List MatchResult) (c e : MatchResult)
    (hnd : (acc.map MatchResult.video_id).Nodup)
    (hmem : e ∈ updateUniqueVideos acc c) (hold : e ∈ acc)
    (hvid : e.video_id = c.video_id) : c.similarity ≤ e.similarity := by
  induction acc with
  | nil => cases hold
  | cons f rest ih =>
    rw [List.map_cons, List.nodup_cons] at hnd
    obtain ⟨hf, hnd2⟩ := hnd
    by_cases hfv : f.video_id = c.video_id
    · simp only [updateUniqueVideos, if_pos hfv] at hmem
      by_cases hsim : f.similarity < c.similarity
      · rw [if_pos hsim] at hmem
        rcases List.mem_cons.mp hmem with h2 | h2
        · subst h2
          exact le_refl _
        · exfalso
          apply hf
          have : e.video_id = f.video_id := by rw [hvid, hfv]
          rw [← this]
          exact List.mem_map_of_mem _ h2
      · rw [if_neg hsim] at hmem
        rcases List.mem_cons.mp hold with h2 | h2
        · subst h2
          exact le_of_not_lt hsim
        · exfalso
          apply hf
          have : e.video_id = f.video_id := by rw [hvid, hfv]
          rw [← this]
          exact List.mem_map_of_mem _ h2
    · simp only [updateUniqueVideos, if_neg hfv] at hmem
      rcases List.mem_cons.mp hold with h2 | h2
      · subst h2
        exact absurd hvid hfv
      · rcases List.mem_cons.mp hmem with h3 | h3
        · subst h3
          exact absurd hvid hfv
        · exact ih hnd2 h3 h2

/-- When the inserted chunk itself ends up in the map (and it was not
already an entry), it strictly beat the previous entry of its video id:
every old entry with the same video id has at most its similarity. -/
theorem update_inserted_max (acc : List MatchResult) (c : MatchResult)
    (hnd : (acc.map MatchResult.video_id).Nodup)
    (hnot : c ∉ acc) (hmem : c ∈ updateUniqueVideos acc c) :
    ∀ f ∈ acc, f.video_id = c.video_id → f.similarity ≤ c.similarity := by
  induction acc with
  | nil =>
    intro f hfm
    cases hfm
  | cons g rest ih =>
    rw [List.map_cons, List.nodup_cons] at hnd
    obtain ⟨hg, hnd2⟩ := hnd
    intro f hfm hfv
    by_cases hgv : g.video_id = c.video_id
    · simp only [updateUniqueVideos, if_pos hgv] at hmem
      by_cases hsim : g.similarity < c.similarity
      · rcases List.mem_cons.mp hfm with h2 | h2
        · subst h2
          exact le_of_lt hsim
        · exfalso
          apply hg
          have : f.video_id = g.video_id := by rw [hfv, hgv]
          rw [← this]
          exact List.mem_map_of_mem _ h2
      · rw [if_neg hsim] at hmem
        exfalso
        rcases List.mem_cons.mp hmem with h2 | h2
        · exact hnot (h2 ▸ List.mem_cons_self _ _)
        · exact hnot (List.mem_cons_of_mem _ h2)
    · simp only [updateUniqueVideos, if_neg hgv] at hmem
      rcases List.mem_cons.mp hfm with h2 | h2
      · subst h2
        exact absurd hfv hgv
      · rcases List.mem_cons.mp hmem with h3 | h3
        · exact absurd (h3 ▸ hgv) (fun hx => hx rfl)
        · exact ih hnd2 (fun hx => hnot (List.mem_cons_of_mem _ hx)) h3 f h2 hfv

/-- One insertion step preserves the `uniqueVideos` invariant: keys are
duplicate-free, keys coincide with the video ids seen so far, and every
entry is a seen chunk of maximal similarity within its video id. -/
theorem update_step (acc : List MatchResult) (c : MatchResult) (seen : List MatchResult)
    (hnd : (acc.map MatchResult.video_id).Nodup)
    (hkeys : ∀ v, v ∈ acc.map MatchResult.video_id ↔ v ∈ seen.map MatchResult.video_id)
    (hmax : ∀ e ∈ acc, e ∈ seen
      ∧ ∀ a ∈ seen, a.video_id = e.video_id → a.similarity ≤ e.similarity) :
    ((updateUniqueVideos acc c).map MatchResult.video_id).Nodup
    ∧ (∀ v, v ∈ (updateUniqueVideos acc c).map MatchResult.video_id
        ↔ v ∈ (seen ++ [c]).map MatchResult.video_id)
    ∧ (∀ e ∈ updateUniqueVideos acc c,
        e ∈ seen ++ [c]
        ∧ ∀ a ∈ seen ++ [c], a.video_id = e.video_id → a.similarity ≤ e.similarity) := by
  refine ⟨?_, ?_, ?_⟩
  · rw [keys_updateUniqueVideos]
    split
    · exact hnd
    · rename_i hni
      rw [List.nodup_append]
      exact ⟨hnd, List.nodup_singleton _, by
        intro a ha hb
        rw [List.mem_singleton] at hb
        subst hb
        exact hni ha⟩
  · intro v
    rw [keys_updateUniqueVideos, List.map_append, List.map_singleton]
    by_cases hc : c.video_id ∈ acc.map MatchResult.video_id
    · rw [if_pos hc]
      constructor
      · intro hv
        exact List.mem_append.mpr (Or.inl ((hkeys v).mp hv))
      · intro hv
        rcases List.mem_append.mp hv with h | h
        · exact (hkeys v).mpr h
        · rw [List.mem_singleton] at h
          subst h
          exact hc
    · rw [if_neg hc]
      constructor
      · intro hv
        rcases List.mem_append.mp hv with h | h
        · exact List.mem_append.mpr (Or.inl ((hkeys v).mp h))
        · exact List.mem_append.mpr (Or.inr h)
      · intro hv
        rcases List.mem_append.mp hv with h | h
        · exact List.mem_append.mpr (Or.inl ((hkeys v).mpr h))
        · exact List.mem_append.mpr (Or.inr h)
  · intro e he
    by_cases holdacc : e ∈ acc
    · obtain ⟨hseen, hmaxseen⟩ := hmax e holdacc
      refine ⟨List.mem_append.mpr (Or.inl hseen), ?_⟩
      intro a ha hav
      rcases List.mem_append.mp ha with haseen | hac
      · exact hmaxseen a haseen hav
      · rw [List.mem_singleton] at hac
        subst hac
        exact update_kept_max acc a e hnd he holdacc hav.symm
    · have hec : e = c := (mem_updateUniqueVideos acc c e he).resolve_left holdacc
      subst hec
      refine ⟨List.mem_append.mpr (Or.inr (List.mem_singleton.mpr rfl)), ?_⟩
      intro a ha hav
      rcases List.mem_append.mp ha with haseen | hac
      · have havk : a.video_id ∈ seen.map MatchResult.video_id :=
          List.mem_map_of_mem _ haseen
        have hacck : a.video_id ∈ acc.map MatchResult.video_id := (hkeys _).mpr havk
        obtain ⟨f, hfacc, hfv⟩ := List.mem_map.mp hacck
        obtain ⟨hfseen, hfmax⟩ := hmax f hfacc
        have h1 : a.similarity ≤ f.similarity := hfmax a haseen hfv.symm
        have h2 : f.similarity ≤ e.similarity :=
          update_inserted_max acc e hnd holdacc he f hfacc (by rw [hfv, hav])
        exact le_trans h1 h2
      · rw [List.mem_singleton] at hac
        subst hac
        exact le_refl _

/-- The fold invariant of `dedupByVideo` over any prefix of chunks. -/
theorem dedup_fold (chunks : List MatchResult) :
    ∀ (seen acc : List MatchResult),
    (acc.map MatchResult.video_id).Nodup →
    (∀ v, v ∈ acc.map MatchResult.video_id ↔ v ∈ seen.map MatchResult.video_id) →
    (∀ e ∈ acc, e ∈ seen
      ∧ ∀ a ∈ seen, a.video_id = e.video_id → a.similarity ≤ e.similarity) →
    ((chunks.foldl updateUniqueVideos acc).map MatchResult.video_id).Nodup
    ∧ (∀ v, v ∈ (chunks.foldl updateUniqueVideos acc).map MatchResult.video_id
        ↔ v ∈ (seen ++ chunks).map MatchResult.video_id)
    ∧ (∀ e ∈ chunks.foldl updateUniqueVideos acc,
        e ∈ seen ++ chunks
        ∧ ∀ a ∈ seen ++ chunks, a.video_id = e.video_id → a.similarity ≤ e.similarity) := by
  induction chunks with
  | nil =>
    intro seen acc h1 h2 h3
    simp only [List.foldl_nil, List.append_nil]
    exact ⟨h1, h2, h3⟩
  | cons c rest ih =>
    intro seen acc h1 h2 h3
    obtain ⟨h1b, h2b, h3b⟩ := update_step acc c seen h1 h2 h3
    have := ih (seen ++ [c]) (updateUniqueVideos acc c) h1b h2b h3b
    rw [List.append_assoc, List.singleton_append] at this
    exact this

/-- C3: `formatSources` deduplicates by video id.  The deduplicated list
has duplicate-free video ids covering exactly the retrieved video ids, and
every surviving entry is one of the retrieved chunks whose similarity is
maximal among that video's chunks; `formatSources` is the per-entry
formatting of that list.  On the spec's example (video A with similarities
0.9 and 0.95, video B with 0.8) it returns exactly two entries, and video
A's entry is built from the similarity-0.95 chunk. -/
theorem format_sources_dedup (chunks : List MatchResult) :
    ((dedupByVideo chunks).map MatchResult.video_id).Nodup
    ∧ (∀ v, v ∈ (dedupByVideo chunks).map MatchResult.video_id
        ↔ v ∈ chunks.map MatchResult.video_id)
    ∧ (∀ e ∈ dedupByVideo chunks,
        e ∈ chunks ∧ ∀ a ∈ chunks, a.video_id = e.video_id → a.similarity ≤ e.similarity)
    ∧ formatSources chunks = (dedupByVideo chunks).map toSource
    ∧ formatSources [mrA1, mrA2, mrB] = [toSource mrA2, toSource mrB]
    ∧ (formatSources [mrA1, mrA2, mrB]).length = 2
    ∧ toSource mrA2 = ⟨("TA".toList), ("http://a".toList), some 20, some ("Alice".toList)⟩ := by
  obtain ⟨h1, h2, h3⟩ := dedup_fold chunks [] [] (by simp) (by simp) (by simp)
  refine ⟨h1, ?_, ?_, rfl, by decide, by decide, by decide⟩
  · intro v
    simpa using h2 v
  · intro e he
    simpa using h3 e he

/-- C3 witness: on the example list, video A's surviving entry `mrA2` is a
retrieved chunk and its similarity dominates video A's other chunk. -/
theorem format_sources_dedup_witness :
    mrA2 ∈ [mrA1, mrA2, mrB] ∧ mrA1.similarity ≤ mrA2.similarity :=
  ⟨((format_sources_dedup [mrA1, mrA2, mrB]).2.2.1 mrA2 (by decide)).1,
   ((format_sources_dedup [mrA1, mrA2, mrB]).2.2.1 mrA2 (by decide)).2 mrA1
     (by decide) (by decide)⟩

end FoundersBrain
